import Mathlib

/-!
# Verification of the NaN-boxed `Value` runtime representation (`src/value2.rs`)

This file gives a shallow embedding of the runtime value representation of the
interpreter: the NaN-boxing word codec, the `Function` descriptor and its
48-bit byte packing, the structural view of values with the equality and
total-ordering protocol, and an explicit-heap model of cloning and destruction
for the heap-backed variants.

`f64` doubles are modelled by their 64-bit patterns as natural numbers; IEEE
comparison of non-NaN patterns is modelled by an order-preserving integer key.
The `nanbox` crate and the `array2` module are external to `src/`, so their
behaviour is modelled from the specification where noted.
-/

namespace Value2

/-! ## Bit-pattern model of `f64` -/

/-- Exponent field (bits 62..52) of an `f64` bit pattern. -/
def exponentBits (b : Nat) : Nat := b / 2 ^ 52 % 2 ^ 11

/-- Mantissa field (bits 51..0) of an `f64` bit pattern. -/
def mantissaBits (b : Nat) : Nat := b % 2 ^ 52

/-- `f64::is_nan`: exponent all ones and nonzero mantissa. -/
def isNaNBits (b : Nat) : Bool := exponentBits b == 2047 && mantissaBits b != 0

/-- Order-preserving integer key for non-NaN `f64` bit patterns: IEEE comparison
of two non-NaN doubles agrees with integer comparison of their keys, and
`+0.0`/`-0.0` (patterns `0` and `2^63`) share the key `0`. -/
def f64Key (b : Nat) : Int := if b < 2 ^ 63 then (b : Int) else -((b - 2 ^ 63 : Nat) : Int)

/-- Model of IEEE `==` on `f64`: false if either operand is NaN, otherwise
equality of order keys. -/
def f64Beq (a b : Nat) : Bool := !isNaNBits a && !isNaNBits b && f64Key a == f64Key b

/-- Three-way comparison of integers. -/
def icmp (a b : Int) : Ordering := if a < b then .lt else if a = b then .eq else .gt

/-- Three-way comparison of naturals (models `Ord` on `u32`/`u16`/`char`). -/
def ncmp (a b : Nat) : Ordering := if a < b then .lt else if a = b then .eq else .gt

/-- Model of `f64::partial_cmp`: `none` iff either operand is NaN, otherwise
IEEE comparison. -/
def f64PartialCmp (a b : Nat) : Option Ordering :=
  if isNaNBits a || isNaNBits b then none else some (icmp (f64Key a) (f64Key b))

/-- Model of `bool::cmp` (`false < true`). -/
def bcmp : Bool → Bool → Ordering
  | false, true => .lt
  | true, false => .gt
  | _, _ => .eq

/-! ## The `Function` descriptor -/

/-- `Function { start: u32, params: u16 }`; the fields are naturals, with the
`u32`/`u16` bounds carried as hypotheses where they matter. -/
structure Function where
  start : Nat
  params : Nat
deriving DecidableEq

/-- `Function::nil()`. -/
def Function.nil : Function := ⟨0, 1⟩

/-- `impl Default for Function` (delegates to `nil`). -/
def Function.defaultFn : Function := Function.nil

/-- `Function::is_nil`: tests `start == 0` only. -/
def Function.is_nil (f : Function) : Bool := f.start == 0

/-- Derived `PartialEq` on `Function`: structural field equality. -/
def funBeq (f g : Function) : Bool := f.start == g.start && f.params == g.params

/-- Derived `Ord` on `Function`: lexicographic by `start`, then `params`. -/
def funCmp (f g : Function) : Ordering := (ncmp f.start g.start).then (ncmp f.params g.params)

/-! ## NaN-box word codec

The `nanbox` crate is not part of `src/`. Modelled from the spec: a canonical
(non-NaN) double is stored unmodified; every other tag is encoded as a
non-canonical NaN pattern whose mantissa holds the tag in a fixed sub-field and
the 48-bit payload in the remaining bits; a NaN double is canonicalised into
the Number tag's dedicated NaN pattern so that arithmetic NaNs never collide
with the reserved tag patterns. -/

/-- The Number tag's dedicated canonical quiet-NaN pattern. -/
def QNAN : Nat := 0x7ff8000000000000

/-- Base of the reserved boxed-tag range: sign bit set, exponent all ones,
quiet bit set; the 3-bit tag sits in bits 50..48 above the 48-bit payload. -/
def BOX_BASE : Nat := 0xfff8000000000000

def NUM_TAG : Nat := 0
def CHAR_TAG : Nat := 1
def FUNCTION_TAG : Nat := 2
def PARTIAL_TAG : Nat := 3
def ARRAY_TAG : Nat := 4

/-- Modelled from the spec: box a tagged 48-bit payload (`1 ≤ tag ≤ 7`,
`payload < 2^48`) into the reserved NaN range. -/
def packPayload (tag payload : Nat) : Nat := BOX_BASE + tag * 2 ^ 48 + payload

/-- Modelled from the spec: recover the tag of a word; words outside the
reserved boxed range (all stored doubles) have tag `0` (Number). -/
def wordTag (w : Nat) : Nat := if BOX_BASE + 2 ^ 48 ≤ w then w / 2 ^ 48 % 8 else 0

/-- Modelled from the spec: the 48-bit payload of a boxed word. -/
def unpackPayload (w : Nat) : Nat := w % 2 ^ 48

/-- Modelled from the spec: pack a double; a non-NaN pattern is stored
unmodified and any NaN is canonicalised to `QNAN`. -/
def packF64 (d : Nat) : Nat := if isNaNBits d then QNAN else d

/-- Modelled from the spec: unpack a Number word (stored doubles are their own
encoding). -/
def unpackF64 (w : Nat) : Nat := w

/-- `impl From<f64> for Value`: `NanBox::new(NUM_TAG, n)`. -/
def fromF64 (d : Nat) : Nat := packF64 d

/-- `impl From<char> for Value`: the scalar code point is the payload. -/
def fromChar (c : Nat) : Nat := packPayload CHAR_TAG c

/-- `NanBoxable for Function`, packing direction: `start.to_le_bytes` and
`params.to_le_bytes` laid out as the little-endian bytes `[a,b,c,d,e,f]` of
the 48-bit payload. -/
def functionToPayload (fn : Function) : Nat :=
  fn.start % 2 ^ 8 + fn.start / 2 ^ 8 % 2 ^ 8 * 2 ^ 8 + fn.start / 2 ^ 16 % 2 ^ 8 * 2 ^ 16 +
    fn.start / 2 ^ 24 % 2 ^ 8 * 2 ^ 24 + fn.params % 2 ^ 8 * 2 ^ 32 +
    fn.params / 2 ^ 8 % 2 ^ 8 * 2 ^ 40

/-- `NanBoxable for Function`, unpacking direction: split the 48-bit payload
into six little-endian bytes, then `u32::from_le_bytes` / `u16::from_le_bytes`. -/
def payloadToFunction (p : Nat) : Function :=
  { start := p % 2 ^ 8 + p / 2 ^ 8 % 2 ^ 8 * 2 ^ 8 + p / 2 ^ 16 % 2 ^ 8 * 2 ^ 16 +
      p / 2 ^ 24 % 2 ^ 8 * 2 ^ 24
    params := p / 2 ^ 32 % 2 ^ 8 + p / 2 ^ 40 % 2 ^ 8 * 2 ^ 8 }

/-- `impl From<Function> for Value`. -/
def fromFunction (fn : Function) : Nat := packPayload FUNCTION_TAG (functionToPayload fn)

/-- `impl From<Partial> for Value`: the heap address (< 2^48) is the payload. -/
def fromPartialPtr (p : Nat) : Nat := packPayload PARTIAL_TAG p

/-- `impl From<Array> for Value`: the heap address (< 2^48) is the payload. -/
def fromArrayPtr (p : Nat) : Nat := packPayload ARRAY_TAG p

/-- `Value::is_num`. -/
def is_num (w : Nat) : Bool := wordTag w == NUM_TAG

/-- `Value::is_char`. -/
def is_char (w : Nat) : Bool := wordTag w == CHAR_TAG

/-- `Value::is_function`. -/
def is_function (w : Nat) : Bool := wordTag w == FUNCTION_TAG

/-- `Value::is_partial`. -/
def is_partial_ref (w : Nat) : Bool := wordTag w == PARTIAL_TAG

/-- `Value::is_array`. -/
def is_array (w : Nat) : Bool := wordTag w == ARRAY_TAG

/-- Exactly one of the five tag predicates holds for the word. -/
def ExactlyOneTag (w : Nat) : Prop :=
  (is_num w ∧ ¬is_char w ∧ ¬is_function w ∧ ¬is_partial_ref w ∧ ¬is_array w) ∨
  (¬is_num w ∧ is_char w ∧ ¬is_function w ∧ ¬is_partial_ref w ∧ ¬is_array w) ∨
  (¬is_num w ∧ ¬is_char w ∧ is_function w ∧ ¬is_partial_ref w ∧ ¬is_array w) ∨
  (¬is_num w ∧ ¬is_char w ∧ ¬is_function w ∧ is_partial_ref w ∧ ¬is_array w) ∨
  (¬is_num w ∧ ¬is_char w ∧ ¬is_function w ∧ ¬is_partial_ref w ∧ is_array w)

/-! ## Variant accessors (`Value::number`, `Value::char`, ...)

Each accessor asserts that the tag matches before unpacking; `none` models the
fatal assertion failure, `some` the returned payload. -/

/-- `Value::number`. -/
def number_acc (w : Nat) : Option Nat := if is_num w then some (unpackF64 w) else none

/-- `Value::char`. -/
def char_acc (w : Nat) : Option Nat := if is_char w then some (unpackPayload w) else none

/-- `Value::function`. -/
def function_acc (w : Nat) : Option Function :=
  if is_function w then some (payloadToFunction (unpackPayload w)) else none

/-- `Value::partial` (returns the heap reference). -/
def partial_acc (w : Nat) : Option Nat :=
  if is_partial_ref w then some (unpackPayload w) else none

/-- `Value::partial_mut`. -/
def partial_mut_acc (w : Nat) : Option Nat :=
  if is_partial_ref w then some (unpackPayload w) else none

/-- `Value::array` (returns the heap reference). -/
def array_acc (w : Nat) : Option Nat :=
  if is_array w then some (unpackPayload w) else none

/-- `Value::array_mut`. -/
def array_mut_acc (w : Nat) : Option Nat :=
  if is_array w then some (unpackPayload w) else none

/-! ## Structural view of `Value` for the equality / ordering protocol

A `Value` is one of the five variants; the `number` payload is the unpacked
`f64` bit pattern, `vchar` the code point, `vpart` carries the `Function`
and the (dereferenced) captured-argument sequence of a `Partial`, and `varray`
carries the array collaborator's payload. Modelled from the spec: the `array2`
module is not in `src/`; `Array` is opaque here beyond supporting equality and
a total order, so its payload is modelled as a natural number compared by the
natural order. -/

mutual
inductive Value where
  | number (bits : Nat)
  | vchar (c : Nat)
  | function (f : Function)
  | vpart (f : Function) (args : Args)
  | varray (a : Nat)
deriving DecidableEq
inductive Args where
  | nil
  | cons (v : Value) (vs : Args)
deriving DecidableEq
end

/-- The tag index of a variant: the declaration order of `RawType`,
`0=Number, 1=Char, 2=Function, 3=Partial, 4=Array`, which its derived `Ord`
compares by. -/
def Value.tagIdx : Value → Nat
  | .number _ => 0
  | .vchar _ => 1
  | .function _ => 2
  | .vpart _ _ => 3
  | .varray _ => 4

/-- Number-variant equality from `impl PartialEq for Value`:
`a == b || a.is_nan() && b.is_nan()`. -/
def numBeq (a b : Nat) : Bool := f64Beq a b || (isNaNBits a && isNaNBits b)

/-- Number-variant comparison from `impl Ord for Value`:
`a.partial_cmp(&b).unwrap_or_else(|| a.is_nan().cmp(&b.is_nan()))`. -/
def numCmp (a b : Nat) : Ordering :=
  (f64PartialCmp a b).getD (bcmp (isNaNBits a) (isNaNBits b))

mutual
/-- `impl PartialEq for Value`: payload equality on matching tags (for
`Partial`, derived structural equality: equal `Function` and pointwise-equal
argument slices), `false` across tags. -/
def Value.beq : Value → Value → Bool
  | .number a, .number b => numBeq a b
  | .vchar a, .vchar b => a == b
  | .function f, .function g => funBeq f g
  | .vpart f as, .vpart g bs => funBeq f g && Args.beq as bs
  | .varray a, .varray b => a == b
  | _, _ => false
/-- Slice equality on `Arc<[Value]>`: same length and pointwise equal. -/
def Args.beq : Args → Args → Bool
  | .nil, .nil => true
  | .cons a as, .cons b bs => Value.beq a b && Args.beq as bs
  | _, _ => false
end

mutual
/-- `impl Ord for Value`: payload comparison on matching tags (for `Partial`,
derived lexicographic order on `(function, args)`), tag-index comparison
across tags. -/
def Value.cmp : Value → Value → Ordering
  | .number a, .number b => numCmp a b
  | .vchar a, .vchar b => ncmp a b
  | .function f, .function g => funCmp f g
  | .vpart f as, .vpart g bs => (funCmp f g).then (Args.cmp as bs)
  | .varray a, .varray b => ncmp a b
  | a, b => ncmp a.tagIdx b.tagIdx
/-- Lexicographic slice order on `Arc<[Value]>`: pointwise, shorter-is-prefix
comes first. -/
def Args.cmp : Args → Args → Ordering
  | .nil, .nil => .eq
  | .nil, .cons _ _ => .lt
  | .cons _ _, .nil => .gt
  | .cons a as, .cons b bs => (Value.cmp a b).then (Args.cmp as bs)
end

mutual
/-- Size measure for the mutual induction proofs. -/
def Value.size : Value → Nat
  | .vpart _ as => 1 + as.size
  | _ => 1
def Args.size : Args → Nat
  | .nil => 1
  | .cons v vs => 1 + v.size + vs.size
end

/-! ## Codec lemmas -/

/-- Every word in the reserved boxed range is a NaN bit pattern, so no
ordinary (non-NaN) double collides with a boxed tag encoding. -/
theorem boxed_isNaN (w : Nat) (hw : w < 2 ^ 64) (hb : BOX_BASE + 2 ^ 48 ≤ w) :
    isNaNBits w = true := by
  simp only [isNaNBits, exponentBits, mantissaBits, BOX_BASE] at *
  simp only [Bool.and_eq_true, beq_iff_eq, bne_iff_ne, ne_eq]
  omega

/-- A non-NaN double below `2^64` lies outside the reserved boxed range. -/
theorem notNaN_below_box (d : Nat) (hd : d < 2 ^ 64) (h : isNaNBits d = false) :
    d < BOX_BASE + 2 ^ 48 := by
  by_contra hc
  rw [boxed_isNaN d hd (by omega)] at h
  cases h

/-- The tag of a packed double is the Number tag, whatever the double. -/
theorem wordTag_fromF64 (d : Nat) (hd : d < 2 ^ 64) : wordTag (fromF64 d) = NUM_TAG := by
  unfold fromF64 packF64 wordTag NUM_TAG
  by_cases h : isNaNBits d = true
  · rw [if_pos h, if_neg (by unfold QNAN BOX_BASE; omega)]
  · have hlt := notNaN_below_box d hd (by simpa using h)
    rw [if_neg h, if_neg (by omega)]

/-- The tag of a boxed payload word is the tag it was packed with. -/
theorem wordTag_packPayload (t p : Nat) (ht1 : 1 ≤ t) (ht7 : t ≤ 7) (hp : p < 2 ^ 48) :
    wordTag (packPayload t p) = t := by
  unfold wordTag packPayload BOX_BASE
  rw [if_pos (by omega)]
  omega

/-- The payload of a boxed word round-trips. -/
theorem unpackPayload_packPayload (t p : Nat) (ht7 : t ≤ 7) (hp : p < 2 ^ 48) :
    unpackPayload (packPayload t p) = p := by
  unfold unpackPayload packPayload BOX_BASE
  omega

/-- The 48-bit payload of a packed `Function` is within range. -/
theorem functionToPayload_lt (fn : Function) : functionToPayload fn < 2 ^ 48 := by
  unfold functionToPayload
  omega

/-- Recomposition of the six little-endian bytes of the packing direction. -/
theorem functionToPayload_eq (s q : Nat) :
    functionToPayload ⟨s, q⟩ = s % 2 ^ 32 + q % 2 ^ 16 * 2 ^ 32 := by
  simp only [functionToPayload]
  omega

/-- Recomposition of the six little-endian bytes of the unpacking direction. -/
theorem payloadToFunction_eq (p : Nat) :
    payloadToFunction p = ⟨p % 2 ^ 32, p / 2 ^ 32 % 2 ^ 16⟩ := by
  simp only [payloadToFunction, Function.mk.injEq]
  constructor <;> omega

/-- A word whose tag is below five satisfies exactly one tag predicate. -/
theorem exactlyOneTag_of (w : Nat) (h : wordTag w < 5) : ExactlyOneTag w := by
  unfold ExactlyOneTag is_num is_char is_function is_partial_ref is_array NUM_TAG CHAR_TAG
    FUNCTION_TAG PARTIAL_TAG ARRAY_TAG
  have h5 : wordTag w = 0 ∨ wordTag w = 1 ∨ wordTag w = 2 ∨ wordTag w = 3 ∨ wordTag w = 4 := by
    omega
  rcases h5 with h0 | h0 | h0 | h0 | h0 <;> simp [h0]

/-! ## C1: tag partition -/

/-- C1: every constructed `Value` satisfies exactly one of the five tag
predicates, and `Value::from(d)` carries the Number tag for every double `d`,
NaN bit patterns included, so numeric NaNs never collide with the Character,
Function, Partial, or Array tag encodings. -/
theorem tag_partition (d c fnStart fnParams pp ap : Nat)
    (hd : d < 2 ^ 64) (hc : c < 0x110000)
    (hs : fnStart < 2 ^ 32) (hpm : fnParams < 2 ^ 16)
    (hpp : pp < 2 ^ 48) (hap : ap < 2 ^ 48) :
    (ExactlyOneTag (fromF64 d) ∧ is_num (fromF64 d) = true) ∧
    (ExactlyOneTag (fromChar c) ∧ is_char (fromChar c) = true) ∧
    (ExactlyOneTag (fromFunction ⟨fnStart, fnParams⟩) ∧
      is_function (fromFunction ⟨fnStart, fnParams⟩) = true) ∧
    (ExactlyOneTag (fromPartialPtr pp) ∧ is_partial_ref (fromPartialPtr pp) = true) ∧
    (ExactlyOneTag (fromArrayPtr ap) ∧ is_array (fromArrayPtr ap) = true) := by
  have t0 := wordTag_fromF64 d hd
  have t1 := wordTag_packPayload CHAR_TAG c (by decide) (by decide) (by omega)
  have t2 := wordTag_packPayload FUNCTION_TAG (functionToPayload ⟨fnStart, fnParams⟩)
    (by decide) (by decide) (functionToPayload_lt _)
  have t3 := wordTag_packPayload PARTIAL_TAG pp (by decide) (by decide) hpp
  have t4 := wordTag_packPayload ARRAY_TAG ap (by decide) (by decide) hap
  refine ⟨⟨exactlyOneTag_of _ (by rw [t0]; decide), by simp [is_num, t0]⟩,
    ⟨exactlyOneTag_of _ (by rw [fromChar, t1]; decide), by simp [is_char, fromChar, t1]⟩,
    ⟨exactlyOneTag_of _ (by rw [fromFunction, t2]; decide),
      by simp [is_function, fromFunction, t2]⟩,
    ⟨exactlyOneTag_of _ (by rw [fromPartialPtr, t3]; decide),
      by simp [is_partial_ref, fromPartialPtr, t3]⟩,
    ⟨exactlyOneTag_of _ (by rw [fromArrayPtr, t4]; decide), by simp [is_array, fromArrayPtr, t4]⟩⟩

/-- C1 witness at concrete inputs. -/
theorem tag_partition_witness :
    ExactlyOneTag (fromF64 0x7ff8000000000001) ∧ is_num (fromF64 0x7ff8000000000001) = true := by
  have h := tag_partition 0x7ff8000000000001 97 3 2 5 6 (by decide) (by decide) (by decide)
    (by decide) (by decide) (by decide)
  exact h.1

/-! ## C6: double round-trip -/

/-- C6: for every double `d` (NaN, signed zeros and subnormals included),
`Value::from(d).number()` returns `d` bit-for-bit when `d` is not NaN; when `d`
is NaN it returns some NaN that is equal to `d` under the `Value` equality
rule. -/
theorem f64_roundtrip (d : Nat) (hd : d < 2 ^ 64) :
    (isNaNBits d = false → number_acc (fromF64 d) = some d) ∧
    (isNaNBits d = true → ∃ r, number_acc (fromF64 d) = some r ∧ isNaNBits r = true ∧
      Value.beq (.number r) (.number d) = true) := by
  have hnum : is_num (fromF64 d) = true := by simp [is_num, wordTag_fromF64 d hd, NUM_TAG]
  have hacc : number_acc (fromF64 d) = some (fromF64 d) := by
    rw [number_acc, if_pos hnum]
    rfl
  constructor
  · intro h
    rw [hacc, fromF64, packF64, if_neg (by simp [h])]
  · intro h
    refine ⟨QNAN, ?_, by decide, ?_⟩
    · rw [hacc, fromF64, packF64, if_pos h]
    · have hq : isNaNBits QNAN = true := by decide
      simp [Value.beq, numBeq, h, hq]

/-- C6 witness: the round-trip at `-0.0` (pattern `2^63`) and at a NaN. -/
theorem f64_roundtrip_witness :
    number_acc (fromF64 (2 ^ 63)) = some (2 ^ 63) ∧
    ∃ r, number_acc (fromF64 0x7ff0000000000001) = some r ∧ isNaNBits r = true ∧
      Value.beq (.number r) (.number 0x7ff0000000000001) = true :=
  ⟨(f64_roundtrip (2 ^ 63) (by decide)).1 (by decide),
    (f64_roundtrip 0x7ff0000000000001 (by decide)).2 (by decide)⟩

/-! ## C7: Function round-trip -/

/-- C7: the 48-bit little-endian packing of `(start, params)` and its
unpacking are mutually inverse, and `Value::from(f).function() == f` for every
in-range `Function`. -/
theorem function_roundtrip (fn : Function) (p : Nat)
    (hs : fn.start < 2 ^ 32) (hpm : fn.params < 2 ^ 16) (hp : p < 2 ^ 48) :
    payloadToFunction (functionToPayload fn) = fn ∧
    functionToPayload (payloadToFunction p) = p ∧
    function_acc (fromFunction fn) = some fn := by
  have h1 : payloadToFunction (functionToPayload fn) = fn := by
    obtain ⟨s, q⟩ := fn
    simp only [Function.mk.injEq] at *
    rw [functionToPayload_eq, payloadToFunction_eq]
    simp only [Function.mk.injEq]
    constructor <;> omega
  have hfn : is_function (fromFunction fn) = true := by
    simp [is_function, fromFunction,
      wordTag_packPayload FUNCTION_TAG _ (by decide) (by decide) (functionToPayload_lt fn)]
  refine ⟨h1, ?_, ?_⟩
  · rw [payloadToFunction_eq, functionToPayload_eq]
    omega
  · simp only [function_acc, hfn, if_pos]
    rw [fromFunction,
      unpackPayload_packPayload FUNCTION_TAG _ (by decide) (functionToPayload_lt fn), h1]

/-- C7 witness at a concrete `Function` and payload. -/
theorem function_roundtrip_witness :
    payloadToFunction (functionToPayload ⟨10, 2⟩) = ⟨10, 2⟩ ∧
    functionToPayload (payloadToFunction 0xfedcba987654) = 0xfedcba987654 ∧
    function_acc (fromFunction ⟨10, 2⟩) = some ⟨10, 2⟩ :=
  function_roundtrip ⟨10, 2⟩ 0xfedcba987654 (by decide) (by decide) (by decide)

/-! ## C8: accessors are fatal on tag mismatch -/

/-- C8: each variant accessor returns its payload exactly when the word's tag
matches its variant, and aborts (returns nothing) on any other tag. -/
theorem accessors_check_tag (w : Nat) :
    ((number_acc w).isSome = is_num w ∧ (is_num w = true → number_acc w = some (unpackF64 w))) ∧
    ((char_acc w).isSome = is_char w ∧ (is_char w = true → char_acc w = some (unpackPayload w))) ∧
    ((function_acc w).isSome = is_function w ∧
      (is_function w = true → function_acc w = some (payloadToFunction (unpackPayload w)))) ∧
    ((partial_acc w).isSome = is_partial_ref w ∧
      (is_partial_ref w = true → partial_acc w = some (unpackPayload w))) ∧
    ((partial_mut_acc w).isSome = is_partial_ref w ∧
      (is_partial_ref w = true → partial_mut_acc w = some (unpackPayload w))) ∧
    ((array_acc w).isSome = is_array w ∧
      (is_array w = true → array_acc w = some (unpackPayload w))) ∧
    ((array_mut_acc w).isSome = is_array w ∧
      (is_array w = true → array_mut_acc w = some (unpackPayload w))) := by
  refine ⟨⟨?_, fun h => ?_⟩, ⟨?_, fun h => ?_⟩, ⟨?_, fun h => ?_⟩, ⟨?_, fun h => ?_⟩,
    ⟨?_, fun h => ?_⟩, ⟨?_, fun h => ?_⟩, ⟨?_, fun h => ?_⟩⟩
  all_goals simp only [number_acc, char_acc, function_acc, partial_acc, partial_mut_acc,
    array_acc, array_mut_acc]
  all_goals split <;> simp_all

/-- C8 witness: a Character word is accepted by `char` and rejected by the
other accessors. -/
theorem accessors_check_tag_witness :
    char_acc (fromChar 97) = some 97 ∧ number_acc (fromChar 97) = none := by
  have h := accessors_check_tag (fromChar 97)
  have hw : wordTag (fromChar 97) = CHAR_TAG :=
    wordTag_packPayload CHAR_TAG 97 (by decide) (by decide) (by decide)
  have hc : is_char (fromChar 97) = true := by
    simp only [is_char, hw]
    decide
  have hn : is_num (fromChar 97) = false := by
    simp only [is_num, hw]
    decide
  refine ⟨?_, ?_⟩
  · have h2 := h.2.1.2 hc
    rw [h2]
    rw [fromChar, unpackPayload_packPayload CHAR_TAG 97 (by decide) (by decide)]
  · have h2 := h.1.1
    rw [hn] at h2
    cases e : number_acc (fromChar 97) <;> simp_all

/-! ## C10: `Function::nil`, `Default`, `is_nil` -/

/-- C10: `nil()` is `{start: 0, params: 1}`, `default()` equals `nil()`, and
`is_nil` tests only `start == 0`, so `{start: 0, params: 5}` is nil yet
structurally unequal to `nil()`. -/
theorem function_nil_spec :
    Function.nil = ⟨0, 1⟩ ∧ Function.defaultFn = Function.nil ∧
    (∀ f : Function, f.is_nil = true ↔ f.start = 0) ∧
    Function.is_nil ⟨0, 5⟩ = true ∧ (⟨0, 5⟩ : Function) ≠ Function.nil := by
  refine ⟨rfl, rfl, ?_, rfl, by decide⟩
  intro f
  simp [Function.is_nil]

/-- C10 witness: the `is_nil` equivalence at `nil()` itself. -/
theorem function_nil_spec_witness : Function.is_nil Function.nil = true :=
  (function_nil_spec.2.2.1 Function.nil).mpr rfl

/-! ## Comparator component lemmas -/

theorem ncmp_eq_lt {a b : Nat} : ncmp a b = .lt ↔ a < b := by
  unfold ncmp
  split_ifs with h1 h2
  · exact iff_of_true rfl h1
  · exact iff_of_false (by decide) (by omega)
  · exact iff_of_false (by decide) (by omega)

theorem ncmp_eq_eq {a b : Nat} : ncmp a b = .eq ↔ a = b := by
  unfold ncmp
  split_ifs with h1 h2
  · exact iff_of_false (by decide) (by omega)
  · exact iff_of_true rfl h2
  · exact iff_of_false (by decide) (by omega)

theorem ncmp_eq_gt {a b : Nat} : ncmp a b = .gt ↔ b < a := by
  unfold ncmp
  split_ifs with h1 h2
  · exact iff_of_false (by decide) (by omega)
  · exact iff_of_false (by decide) (by omega)
  · exact iff_of_true rfl (by omega)

theorem ncmp_symm (a b : Nat) : (ncmp a b).swap = ncmp b a := by
  unfold ncmp
  split_ifs <;> first | rfl | (exfalso; omega)

theorem ncmp_le_trans (a b c : Nat) (h1 : ncmp a b ≠ .gt) (h2 : ncmp b c ≠ .gt) :
    ncmp a c ≠ .gt := by
  simp only [ne_eq, ncmp_eq_gt] at *
  omega

theorem icmp_eq_lt {a b : Int} : icmp a b = .lt ↔ a < b := by
  unfold icmp
  split_ifs with h1 h2
  · exact iff_of_true rfl h1
  · exact iff_of_false (by decide) (by omega)
  · exact iff_of_false (by decide) (by omega)

theorem icmp_eq_eq {a b : Int} : icmp a b = .eq ↔ a = b := by
  unfold icmp
  split_ifs with h1 h2
  · exact iff_of_false (by decide) (by omega)
  · exact iff_of_true rfl h2
  · exact iff_of_false (by decide) (by omega)

theorem icmp_eq_gt {a b : Int} : icmp a b = .gt ↔ b < a := by
  unfold icmp
  split_ifs with h1 h2
  · exact iff_of_false (by decide) (by omega)
  · exact iff_of_false (by decide) (by omega)
  · exact iff_of_true rfl (by omega)

theorem icmp_symm (a b : Int) : (icmp a b).swap = icmp b a := by
  unfold icmp
  split_ifs <;> first | rfl | (exfalso; omega)

theorem icmp_le_trans (a b c : Int) (h1 : icmp a b ≠ .gt) (h2 : icmp b c ≠ .gt) :
    icmp a c ≠ .gt := by
  simp only [ne_eq, icmp_eq_gt] at *
  omega

/-- Explicit case form of the Number comparison. -/
theorem numCmp_eq (a b : Nat) :
    numCmp a b =
      if isNaNBits a = true then (if isNaNBits b = true then .eq else .gt)
      else (if isNaNBits b = true then .lt else icmp (f64Key a) (f64Key b)) := by
  unfold numCmp f64PartialCmp
  cases ha : isNaNBits a <;> cases hb : isNaNBits b <;> simp [ha, hb, bcmp]

theorem numCmp_symm (a b : Nat) : (numCmp a b).swap = numCmp b a := by
  rw [numCmp_eq, numCmp_eq]
  split_ifs <;> first | rfl | exact icmp_symm _ _

theorem numCmp_le_trans (a b c : Nat) (h1 : numCmp a b ≠ .gt) (h2 : numCmp b c ≠ .gt) :
    numCmp a c ≠ .gt := by
  rw [numCmp_eq] at h1 h2 ⊢
  split_ifs at h1 h2 ⊢ <;> try simp_all
  all_goals exact icmp_le_trans _ _ _ h1 h2

theorem numBeq_iff_eq (a b : Nat) : numBeq a b = true ↔ numCmp a b = .eq := by
  rw [numCmp_eq]
  unfold numBeq f64Beq
  cases ha : isNaNBits a <;> cases hb : isNaNBits b <;> simp [ha, hb, icmp_eq_eq]

theorem funCmp_symm (f g : Function) : (funCmp f g).swap = funCmp g f := by
  simp only [funCmp, Ordering.swap_then, ncmp_symm]

theorem funCmp_le_trans (f g h : Function) (h1 : funCmp f g ≠ .gt) (h2 : funCmp g h ≠ .gt) :
    funCmp f h ≠ .gt := by
  simp only [funCmp, ne_eq, Ordering.then_eq_gt, ncmp_eq_gt, ncmp_eq_eq] at *
  omega

theorem funCmp_lt_trans (f g h : Function) (h1 : funCmp f g = .lt) (h2 : funCmp g h = .lt) :
    funCmp f h = .lt := by
  simp only [funCmp, Ordering.then_eq_lt, ncmp_eq_lt, ncmp_eq_eq] at *
  omega

theorem funCmp_congr_r (f g h : Function) (he : funCmp g h = .eq) : funCmp f h = funCmp f g := by
  simp only [funCmp, Ordering.then_eq_eq, ncmp_eq_eq] at he
  obtain ⟨e1, e2⟩ := he
  simp [funCmp, ← e1, ← e2]

theorem funCmp_congr_l (f g h : Function) (he : funCmp f g = .eq) : funCmp f h = funCmp g h := by
  simp only [funCmp, Ordering.then_eq_eq, ncmp_eq_eq] at he
  obtain ⟨e1, e2⟩ := he
  simp [funCmp, e1, e2]

theorem funBeq_iff_eq (f g : Function) : funBeq f g = true ↔ funCmp f g = .eq := by
  simp [funBeq, funCmp, Ordering.then_eq_eq, ncmp_eq_eq]

/-- The order key is injective on bit patterns up to the two signed zeros. -/
theorem f64Key_eq_iff (a b : Nat) :
    f64Key a = f64Key b ↔ (a = b ∨ (a = 0 ∧ b = 2 ^ 63) ∨ (a = 2 ^ 63 ∧ b = 0)) := by
  unfold f64Key
  split_ifs <;> omega

/-- Unfolding of `Value.beq` on two Number variants. -/
theorem beq_number (a b : Nat) : Value.beq (.number a) (.number b) = numBeq a b := by
  simp [Value.beq]

/-- Unfolding of `Value.cmp` on two Number variants. -/
theorem cmp_number (a b : Nat) : Value.cmp (.number a) (.number b) = numCmp a b := by
  simp [Value.cmp]

/-! ## C2: Number equality (corrected: IEEE `==` identifies the signed zeros) -/

/-- C2 counterexample: `from_number(0.0)` and `from_number(-0.0)` (payload bit
patterns `0` and `2^63`) are equal `Value`s although the payloads are not
bitwise equal and neither is NaN, refuting the claimed "bitwise-equal or both
NaN" characterisation. -/
theorem number_eq_counterexample :
    number_acc (fromF64 0) = some 0 ∧ number_acc (fromF64 (2 ^ 63)) = some (2 ^ 63) ∧
    Value.beq (.number 0) (.number (2 ^ 63)) = true ∧
    ¬((0 : Nat) = 2 ^ 63 ∨ (isNaNBits 0 = true ∧ isNaNBits (2 ^ 63) = true)) := by
  refine ⟨?_, ?_, by decide, by decide⟩
  · exact (f64_roundtrip 0 (by decide)).1 (by decide)
  · exact (f64_roundtrip (2 ^ 63) (by decide)).1 (by decide)

/-- C2 (amended): two Number `Value`s are equal iff their payloads are bitwise
equal, or they are the two zero patterns `+0.0`/`-0.0`, or both are NaN. -/
theorem number_eq_iff (a b : Nat) :
    Value.beq (.number a) (.number b) = true ↔
      (a = b ∨ (a = 0 ∧ b = 2 ^ 63) ∨ (a = 2 ^ 63 ∧ b = 0) ∨
        (isNaNBits a = true ∧ isNaNBits b = true)) := by
  rw [beq_number]
  unfold numBeq f64Beq
  cases ha : isNaNBits a <;> cases hb : isNaNBits b
  · simp [ha, hb, f64Key_eq_iff]
  · simp only [ha, hb, Bool.not_true, Bool.and_false, Bool.false_and, Bool.and_true,
      Bool.not_false, Bool.true_and, Bool.or_false]
    refine iff_of_false ?_ ?_
    · simp
    · rintro (rfl | ⟨rfl, rfl⟩ | ⟨rfl, rfl⟩ | ⟨h4, h5⟩)
      · rw [ha] at hb
        exact absurd hb (by decide)
      · exact absurd hb (by decide)
      · exact absurd hb (by decide)
      · exact absurd h4 (by decide)
  · simp only [ha, hb, Bool.not_true, Bool.and_false, Bool.false_and, Bool.and_true,
      Bool.not_false, Bool.true_and, Bool.or_false]
    refine iff_of_false ?_ ?_
    · simp
    · rintro (rfl | ⟨rfl, rfl⟩ | ⟨rfl, rfl⟩ | ⟨h4, h5⟩)
      · rw [ha] at hb
        exact absurd hb (by decide)
      · exact absurd ha (by decide)
      · exact absurd ha (by decide)
      · exact absurd h5 (by decide)
  · simp [ha, hb]

/-- C2 witness: the amended equivalence at the spec's scenarios — `1.0`
equals `1.0`, and NaN equals NaN with distinct NaN bit patterns. -/
theorem number_eq_iff_witness :
    Value.beq (.number 0x3ff0000000000000) (.number 0x3ff0000000000000) = true ∧
    Value.beq (.number 0x7ff8000000000000) (.number 0x7ff0000000000001) = true :=
  ⟨(number_eq_iff 0x3ff0000000000000 0x3ff0000000000000).mpr (Or.inl rfl),
    (number_eq_iff 0x7ff8000000000000 0x7ff0000000000001).mpr
      (Or.inr (Or.inr (Or.inr ⟨by decide, by decide⟩)))⟩

/-! ## C3: Number ordering -/

/-- C3: on Number `Value`s, a NaN payload compares strictly greater than every
non-NaN payload, two NaNs compare equal, and two non-NaN payloads compare by
IEEE floating-point comparison (integer comparison of the order keys). -/
theorem number_order (a b : Nat) :
    (isNaNBits a = true → isNaNBits b = false → Value.cmp (.number a) (.number b) = .gt) ∧
    (isNaNBits a = false → isNaNBits b = true → Value.cmp (.number a) (.number b) = .lt) ∧
    (isNaNBits a = true → isNaNBits b = true → Value.cmp (.number a) (.number b) = .eq) ∧
    (isNaNBits a = false → isNaNBits b = false →
      Value.cmp (.number a) (.number b) = icmp (f64Key a) (f64Key b)) := by
  have he := cmp_number a b
  rw [numCmp_eq] at he
  refine ⟨fun h1 h2 => ?_, fun h1 h2 => ?_, fun h1 h2 => ?_, fun h1 h2 => ?_⟩ <;>
    simp [he, h1, h2]

/-- C3 witness: a NaN payload above the non-NaN payload `1.0` and equal to
another NaN; `1.0 < 2.0` by IEEE comparison. -/
theorem number_order_witness :
    Value.cmp (.number 0x7ff8000000000000) (.number 0x3ff0000000000000) = .gt ∧
    Value.cmp (.number 0x7ff8000000000000) (.number 0x7ff0000000000001) = .eq ∧
    Value.cmp (.number 0x3ff0000000000000) (.number 0x4000000000000000) = .lt := by
  refine ⟨(number_order _ _).1 (by decide) (by decide),
    (number_order _ _).2.2.1 (by decide) (by decide), ?_⟩
  rw [(number_order _ _).2.2.2 (by decide) (by decide)]
  decide

/-! ## C4: cross-tag equality and ordering -/

/-- C4: two `Value`s of different tags are never equal, and they order by the
fixed tag precedence Number < Character < Function < Partial < Array,
regardless of payloads. -/
theorem cross_tag (a b : Value) (h : a.tagIdx ≠ b.tagIdx) :
    Value.beq a b = false ∧ (Value.cmp a b = .lt ↔ a.tagIdx < b.tagIdx) := by
  cases a <;> cases b <;>
    simp_all [Value.beq, Value.cmp, Value.tagIdx, ncmp_eq_lt] <;> decide

/-- C4 witness: a Function value is unequal to and orders below a Partial
value and above a Character value. -/
theorem cross_tag_witness :
    Value.beq (.function ⟨9, 9⟩) (.vpart ⟨0, 0⟩ .nil) = false ∧
    Value.cmp (.function ⟨9, 9⟩) (.vpart ⟨0, 0⟩ .nil) = .lt ∧
    Value.beq (.function ⟨9, 9⟩) (.vchar 200) = false ∧
    Value.cmp (.function ⟨9, 9⟩) (.vchar 200) ≠ .lt := by
  have h1 := cross_tag (.function ⟨9, 9⟩) (.vpart ⟨0, 0⟩ .nil) (by decide)
  have h2 := cross_tag (.function ⟨9, 9⟩) (.vchar 200) (by decide)
  refine ⟨h1.1, h1.2.mpr (by decide), h2.1, fun hc => ?_⟩
  have := h2.2.mp hc
  simp [Value.tagIdx] at this

/-! ## Generic comparator arguments

These lemmas derive congruence, strict transitivity and lexicographic-step
transitivity for a comparator from its swap-symmetry and non-strict
transitivity at the relevant element permutations, so they can be fed by the
induction hypothesis of the size induction below. -/

/-- Right-congruence from symmetry and non-strict transitivity. -/
theorem congrR_helper {α : Type} (C : α → α → Ordering) (a b c : α)
    (sab : (C a b).swap = C b a) (sac : (C a c).swap = C c a) (sbc : (C b c).swap = C c b)
    (tabc : C a b ≠ .gt → C b c ≠ .gt → C a c ≠ .gt)
    (tbca : C b c ≠ .gt → C c a ≠ .gt → C b a ≠ .gt)
    (tcba : C c b ≠ .gt → C b a ≠ .gt → C c a ≠ .gt)
    (tacb : C a c ≠ .gt → C c b ≠ .gt → C a b ≠ .gt)
    (heq : C b c = .eq) : C a c = C a b := by
  have hcb : C c b = .eq := by rw [← sbc, heq]; rfl
  cases hab : C a b with
  | lt =>
    have h1 : C a c ≠ .gt := tabc (by simp [hab]) (by simp [heq])
    cases hac : C a c with
    | lt => rfl
    | eq =>
      have hca : C c a = .eq := by rw [← sac, hac]; rfl
      have h2 : C b a ≠ .gt := tbca (by simp [heq]) (by simp [hca])
      have hba : C b a = .gt := by rw [← sab, hab]; rfl
      exact absurd hba h2
    | gt => exact absurd hac h1
  | eq =>
    have h1 : C a c ≠ .gt := tabc (by simp [hab]) (by simp [heq])
    cases hac : C a c with
    | lt =>
      have hca : C c a = .gt := by rw [← sac, hac]; rfl
      have hba : C b a = .eq := by rw [← sab, hab]; rfl
      have h2 : C c a ≠ .gt := tcba (by simp [hcb]) (by simp [hba])
      exact absurd hca h2
    | eq => rfl
    | gt => exact absurd hac h1
  | gt =>
    cases hac : C a c with
    | gt => rfl
    | lt => exact absurd hab (tacb (by simp [hac]) (by simp [hcb]))
    | eq => exact absurd hab (tacb (by simp [hac]) (by simp [hcb]))

/-- Strict transitivity from symmetry and non-strict transitivity. -/
theorem ltTrans_helper {α : Type} (C : α → α → Ordering) (a b c : α)
    (sab : (C a b).swap = C b a) (sac : (C a c).swap = C c a)
    (tabc : C a b ≠ .gt → C b c ≠ .gt → C a c ≠ .gt)
    (tbca : C b c ≠ .gt → C c a ≠ .gt → C b a ≠ .gt)
    (h1 : C a b = .lt) (h2 : C b c = .lt) : C a c = .lt := by
  have h3 : C a c ≠ .gt := tabc (by simp [h1]) (by simp [h2])
  cases hac : C a c with
  | lt => rfl
  | gt => exact absurd hac h3
  | eq =>
    have hca : C c a = .eq := by rw [← sac, hac]; rfl
    have h4 : C b a ≠ .gt := tbca (by simp [h2]) (by simp [hca])
    have hba : C b a = .gt := by rw [← sab, h1]; rfl
    exact absurd hba h4

/-- One lexicographic step of non-strict transitivity: if the head comparator
admits congruence and strict transitivity and the tails are transitive, the
`Ordering.then` composition is transitive. -/
theorem lex_le_trans {o1 o2 o3 t1 t2 t3 : Ordering}
    (hcongR : o2 = .eq → o3 = o1)
    (hcongL : o1 = .eq → o3 = o2)
    (hlt : o1 = .lt → o2 = .lt → o3 = .lt)
    (htail : o1 = .eq → o2 = .eq → t1 ≠ .gt → t2 ≠ .gt → t3 ≠ .gt)
    (h1 : o1.then t1 ≠ .gt) (h2 : o2.then t2 ≠ .gt) : o3.then t3 ≠ .gt := by
  rw [ne_eq, Ordering.then_eq_gt] at h1 h2 ⊢
  cases e1 : o1 with
  | gt => exact absurd (Or.inl e1) h1
  | lt =>
    cases e2 : o2 with
    | gt => exact absurd (Or.inl e2) h2
    | lt => simp [hlt e1 e2]
    | eq => simp [hcongR e2, e1]
  | eq =>
    cases e2 : o2 with
    | gt => exact absurd (Or.inl e2) h2
    | lt => simp [hcongL e1, e2]
    | eq =>
      have ht1 : t1 ≠ .gt := fun h => h1 (Or.inr ⟨e1, h⟩)
      have ht2 : t2 ≠ .gt := fun h => h2 (Or.inr ⟨e2, h⟩)
      have h3 := htail e1 e2 ht1 ht2
      simp [hcongR e2, e1, h3]

/-! ## Swap-symmetry of the `Value` comparison -/

theorem cmp_swap_aux (N : Nat) :
    (∀ a b : Value, sizeOf a + sizeOf b ≤ N → (Value.cmp a b).swap = Value.cmp b a) ∧
    (∀ as bs : Args, sizeOf as + sizeOf bs ≤ N → (Args.cmp as bs).swap = Args.cmp bs as) := by
  induction N using Nat.strong_induction_on with
  | _ N ih =>
    constructor
    · intro a b hab
      cases a <;> cases b <;>
        simp only [Value.cmp, Value.tagIdx] <;>
        first
          | exact ncmp_symm _ _
          | exact numCmp_symm _ _
          | exact funCmp_symm _ _
          | (rename_i f as g bs
             simp only [Value.vpart.sizeOf_spec] at hab
             rw [Ordering.swap_then, funCmp_symm,
               (ih (N - 1) (by omega)).2 as bs (by omega)])
    · intro as bs hab
      cases as <;> cases bs <;> simp only [Args.cmp]
      · rfl
      · rfl
      · rfl
      · rename_i a as b bs
        simp only [Args.cons.sizeOf_spec] at hab
        rw [Ordering.swap_then, (ih (N - 1) (by omega)).1 a b (by omega),
          (ih (N - 1) (by omega)).2 as bs (by omega)]

/-- Global swap-symmetry of `Value.cmp`. -/
theorem cmp_symm (a b : Value) : (Value.cmp a b).swap = Value.cmp b a :=
  (cmp_swap_aux (sizeOf a + sizeOf b)).1 a b le_rfl

/-- Global swap-symmetry of `Args.cmp`. -/
theorem argsCmp_symm (as bs : Args) : (Args.cmp as bs).swap = Args.cmp bs as :=
  (cmp_swap_aux (sizeOf as + sizeOf bs)).2 as bs le_rfl

/-! ## Non-strict transitivity of the `Value` comparison -/

theorem cmp_le_trans_aux (N : Nat) :
    (∀ a b c : Value, sizeOf a + sizeOf b + sizeOf c ≤ N →
      Value.cmp a b ≠ .gt → Value.cmp b c ≠ .gt → Value.cmp a c ≠ .gt) ∧
    (∀ as bs cs : Args, sizeOf as + sizeOf bs + sizeOf cs ≤ N →
      Args.cmp as bs ≠ .gt → Args.cmp bs cs ≠ .gt → Args.cmp as cs ≠ .gt) := by
  induction N using Nat.strong_induction_on with
  | _ N ih =>
    constructor
    · intro a b c hsz h1 h2
      cases a <;> cases b <;> cases c <;>
        simp only [Value.cmp, Value.tagIdx] at h1 h2 ⊢ <;>
        first
          | decide
          | exact absurd (by decide) h1
          | exact absurd (by decide) h2
          | exact ncmp_le_trans _ _ _ h1 h2
          | exact numCmp_le_trans _ _ _ h1 h2
          | exact funCmp_le_trans _ _ _ h1 h2
          | (rename_i f as g bs k cs
             simp only [Value.vpart.sizeOf_spec] at hsz
             exact lex_le_trans (funCmp_congr_r f g k) (funCmp_congr_l f g k)
               (funCmp_lt_trans f g k)
               (fun _ _ ht1 ht2 => (ih (N - 1) (by omega)).2 as bs cs (by omega) ht1 ht2) h1 h2)
    · intro as bs cs hsz h1 h2
      cases as <;> cases bs <;> cases cs <;> simp only [Args.cmp] at h1 h2 ⊢ <;>
        first
          | decide
          | exact absurd rfl h1
          | exact absurd rfl h2
          | (rename_i a as b bs c cs
             simp only [Args.cons.sizeOf_spec] at hsz
             have T : ∀ x y z : Value,
                 sizeOf x + sizeOf y + sizeOf z = sizeOf a + sizeOf b + sizeOf c →
                 Value.cmp x y ≠ .gt → Value.cmp y z ≠ .gt → Value.cmp x z ≠ .gt := by
               intro x y z hx
               exact (ih (N - 1) (by omega)).1 x y z (by omega)
             have congR : Value.cmp b c = .eq → Value.cmp a c = Value.cmp a b :=
               congrR_helper Value.cmp a b c (cmp_symm a b) (cmp_symm a c) (cmp_symm b c)
                 (T a b c (by omega)) (T b c a (by omega)) (T c b a (by omega))
                 (T a c b (by omega))
             have hlt : Value.cmp a b = .lt → Value.cmp b c = .lt → Value.cmp a c = .lt :=
               ltTrans_helper Value.cmp a b c (cmp_symm a b) (cmp_symm a c)
                 (T a b c (by omega)) (T b c a (by omega))
             have congL : Value.cmp a b = .eq → Value.cmp a c = Value.cmp b c := by
               intro he
               have hba : Value.cmp b a = .eq := by rw [← cmp_symm a b, he]; rfl
               have h4 : Value.cmp c a = Value.cmp c b :=
                 congrR_helper Value.cmp c b a (cmp_symm c b) (cmp_symm c a) (cmp_symm b a)
                   (T c b a (by omega)) (T b a c (by omega)) (T a b c (by omega))
                   (T c a b (by omega)) hba
               rw [← cmp_symm c a, h4]
               exact cmp_symm c b
             exact lex_le_trans congR congL hlt
               (fun _ _ ht1 ht2 => (ih (N - 1) (by omega)).2 as bs cs (by omega) ht1 ht2) h1 h2)

/-- Global non-strict transitivity of `Value.cmp`. -/
theorem cmp_le_trans (a b c : Value) (h1 : Value.cmp a b ≠ .gt) (h2 : Value.cmp b c ≠ .gt) :
    Value.cmp a c ≠ .gt :=
  (cmp_le_trans_aux (sizeOf a + sizeOf b + sizeOf c)).1 a b c le_rfl h1 h2

/-- Global strict transitivity of `Value.cmp`. -/
theorem cmp_lt_trans (a b c : Value) (h1 : Value.cmp a b = .lt) (h2 : Value.cmp b c = .lt) :
    Value.cmp a c = .lt :=
  ltTrans_helper Value.cmp a b c (cmp_symm a b) (cmp_symm a c)
    (cmp_le_trans a b c) (cmp_le_trans b c a) h1 h2

/-! ## Equality coincides with comparison to `eq` -/

theorem beq_iff_cmp_eq_aux (N : Nat) :
    (∀ a b : Value, sizeOf a + sizeOf b ≤ N → (Value.beq a b = true ↔ Value.cmp a b = .eq)) ∧
    (∀ as bs : Args, sizeOf as + sizeOf bs ≤ N →
      (Args.beq as bs = true ↔ Args.cmp as bs = .eq)) := by
  induction N using Nat.strong_induction_on with
  | _ N ih =>
    constructor
    · intro a b hab
      cases a <;> cases b <;>
        simp only [Value.beq, Value.cmp, Value.tagIdx] <;>
        first
          | decide
          | exact numBeq_iff_eq _ _
          | exact funBeq_iff_eq _ _
          | (simp [ncmp_eq_eq]; done)
          | (rename_i f as g bs
             simp only [Value.vpart.sizeOf_spec] at hab
             rw [Bool.and_eq_true, Ordering.then_eq_eq]
             exact and_congr (funBeq_iff_eq f g) ((ih (N - 1) (by omega)).2 as bs (by omega)))
    · intro as bs hab
      cases as <;> cases bs <;> simp only [Args.beq, Args.cmp] <;>
        first
          | decide
          | (rename_i a as b bs
             simp only [Args.cons.sizeOf_spec] at hab
             rw [Bool.and_eq_true, Ordering.then_eq_eq]
             exact and_congr ((ih (N - 1) (by omega)).1 a b (by omega))
               ((ih (N - 1) (by omega)).2 as bs (by omega)))

/-- `Value` equality coincides with the comparator returning `eq`. -/
theorem beq_iff_cmp_eq (a b : Value) : Value.beq a b = true ↔ Value.cmp a b = .eq :=
  (beq_iff_cmp_eq_aux (sizeOf a + sizeOf b)).1 a b le_rfl

/-! ## C5: the comparison is a strict weak order consistent with equality -/

/-- C5: for all `Value`s (any tags, NaN Numbers and nested Partials included),
`<` is transitive and equal values compare neither-less-nor-greater. -/
theorem strict_weak_order (a b c : Value) :
    (Value.cmp a b = .lt → Value.cmp b c = .lt → Value.cmp a c = .lt) ∧
    (Value.beq a b = true → ¬Value.cmp a b = .lt ∧ ¬Value.cmp b a = .lt) := by
  refine ⟨cmp_lt_trans a b c, fun hbeq => ?_⟩
  have he : Value.cmp a b = .eq := (beq_iff_cmp_eq a b).mp hbeq
  have he' : Value.cmp b a = .eq := by rw [← cmp_symm a b, he]; rfl
  exact ⟨by simp [he], by simp [he']⟩

/-- C5 witness: transitivity through a nested Partial chain and
neither-less-nor-greater for two equal NaN Numbers. -/
theorem strict_weak_order_witness :
    Value.cmp (.vpart ⟨1, 1⟩ (.cons (.number 0x3ff0000000000000) .nil)) (.varray 7) = .lt ∧
    (¬Value.cmp (.number 0x7ff8000000000000) (.number 0x7ff0000000000001) = .lt ∧
      ¬Value.cmp (.number 0x7ff0000000000001) (.number 0x7ff8000000000000) = .lt) :=
  ⟨(strict_weak_order (.vpart ⟨1, 1⟩ (.cons (.number 0x3ff0000000000000) .nil))
      (.vpart ⟨1, 1⟩ (.cons (.number 0x4000000000000000) .nil)) (.varray 7)).1
      (by decide) (by decide),
    (strict_weak_order (.number 0x7ff8000000000000) (.number 0x7ff0000000000001)
      (.varray 0)).2 (by decide)⟩

/-! ## Heap model of duplication and destruction (C9)

Explicit-state model of `impl Clone for Value` and `impl Drop for Value`:
`Partial` records and `Array` blocks live at natural-number addresses, and a
`Partial` record refers to a shared, immutable, reference-counted
argument-sequence block (the `Arc<[Value]>`). A slot holding `none` is freed
or never allocated; the `next*` fields are the allocation frontiers. Array
contents are the opaque collaborator payload, as in `Value.varray`. -/

/-- A heap-allocated `Partial` record: its `Function` and the address of its
shared argument sequence. -/
structure PartialObj where
  function : Function
  argsAddr : Nat
deriving DecidableEq

/-- A shared immutable argument-sequence block with its `Arc` strong count. -/
structure ArgSeqObj where
  count : Nat
  args : Args
deriving DecidableEq

/-- Pointwise store update. -/
def updateAt {α : Type} (f : Nat → Option α) (i : Nat) (x : Option α) : Nat → Option α :=
  fun j => if j = i then x else f j

/-- The heap: stores for `Partial` records, `Array` blocks and shared
argument sequences, with allocation frontiers. -/
structure Heap where
  partials : Nat → Option PartialObj
  arrays : Nat → Option Nat
  argSeqs : Nat → Option ArgSeqObj
  nextP : Nat
  nextA : Nat

/-- A `Value` word as the clone/drop code sees it: an inline word (tags
Number, Character, Function) or a pointer to a heap-backed variant. -/
inductive HVal where
  | inlineW (w : Nat)
  | partialAt (addr : Nat)
  | arrayAt (addr : Nat)
deriving DecidableEq

/-- `impl Clone for Value`: Number/Character/Function words are bit copies;
a Partial clone allocates a new record holding a copy of the `Function` and a
new reference to the *same* argument sequence, incrementing its share count;
an Array clone allocates a new block holding a deep copy of the contents.
`none` models a dangling pointer (never reachable from live values). -/
def cloneVal (h : Heap) (v : HVal) : Option (Heap × HVal) :=
  match v with
  | .inlineW w => some (h, .inlineW w)
  | .partialAt a =>
    match h.partials a with
    | none => none
    | some obj =>
      match h.argSeqs obj.argsAddr with
      | none => none
      | some seq =>
        some ({ h with
            partials := updateAt h.partials h.nextP (some obj)
            argSeqs := updateAt h.argSeqs obj.argsAddr
              (some { seq with count := seq.count + 1 })
            nextP := h.nextP + 1 },
          .partialAt h.nextP)
  | .arrayAt a =>
    match h.arrays a with
    | none => none
    | some contents =>
      some ({ h with
          arrays := updateAt h.arrays h.nextA (some contents)
          nextA := h.nextA + 1 },
        .arrayAt h.nextA)

/-- `impl Drop for Value`: inline variants do nothing; a Partial drop frees
its record and releases one reference on the shared argument sequence, which
is freed exactly when its count reaches zero; an Array drop frees its block. -/
def dropVal (h : Heap) (v : HVal) : Option Heap :=
  match v with
  | .inlineW _ => some h
  | .partialAt a =>
    match h.partials a with
    | none => none
    | some obj =>
      match h.argSeqs obj.argsAddr with
      | none => none
      | some seq =>
        some { h with
          partials := updateAt h.partials a none
          argSeqs := updateAt h.argSeqs obj.argsAddr
            (if seq.count ≤ 1 then none else some { seq with count := seq.count - 1 }) }
  | .arrayAt a =>
    match h.arrays a with
    | none => none
    | some _ => some { h with arrays := updateAt h.arrays a none }

/-- The argument sequence observed through a Partial value. -/
def observedArgs (h : Heap) (v : HVal) : Option Args :=
  match v with
  | .partialAt a =>
    match h.partials a with
    | none => none
    | some obj =>
      match h.argSeqs obj.argsAddr with
      | none => none
      | some seq => some seq.args
  | _ => none

/-- The `Function` observed through a Partial value. -/
def observedFun (h : Heap) (v : HVal) : Option Function :=
  match v with
  | .partialAt a =>
    match h.partials a with
    | none => none
    | some obj => some obj.function
  | _ => none

/-- C9: cloning an inline (Number/Character/Function) word is a bit copy with
no heap effect; cloning a Partial allocates a fresh record holding an equal
`Function` and a new reference to the *same* shared argument sequence (share
count incremented, arguments not deep-copied, other sequences untouched);
cloning an Array allocates a fresh block with equal contents; the clone is
equal to the original; and dropping either the clone or the original leaves
the argument sequence observed through the other intact. -/
theorem clone_drop_spec (h : Heap) (w a aa x : Nat) (obj : PartialObj) (s : ArgSeqObj)
    (hpa : h.partials a = some obj) (hs : h.argSeqs obj.argsAddr = some s)
    (hc : 1 ≤ s.count)
    (hfp : ∀ b, h.nextP ≤ b → h.partials b = none)
    (haa : h.arrays aa = some x)
    (hfa : ∀ b, h.nextA ≤ b → h.arrays b = none) :
    cloneVal h (.inlineW w) = some (h, .inlineW w) ∧
    (∃ h' : Heap,
      cloneVal h (.partialAt a) = some (h', .partialAt h.nextP) ∧
      h.nextP ≠ a ∧
      h'.partials h.nextP = some obj ∧
      h'.partials a = some obj ∧
      h'.argSeqs obj.argsAddr = some ⟨s.count + 1, s.args⟩ ∧
      (∀ b, b ≠ obj.argsAddr → h'.argSeqs b = h.argSeqs b) ∧
      observedFun h' (.partialAt h.nextP) = observedFun h' (.partialAt a) ∧
      observedArgs h' (.partialAt h.nextP) = observedArgs h' (.partialAt a) ∧
      (dropVal h' (.partialAt a)).bind
        (fun h2 => observedArgs h2 (.partialAt h.nextP)) = some s.args ∧
      (dropVal h' (.partialAt h.nextP)).bind
        (fun h3 => observedArgs h3 (.partialAt a)) = some s.args) ∧
    (∃ h' : Heap,
      cloneVal h (.arrayAt aa) = some (h', .arrayAt h.nextA) ∧
      h.nextA ≠ aa ∧
      h'.arrays h.nextA = some x ∧ h'.arrays aa = some x) := by
  have hap : a < h.nextP := by
    by_contra hcon
    rw [hfp a (by omega)] at hpa
    cases hpa
  have haan : aa < h.nextA := by
    by_contra hcon
    rw [hfa aa (by omega)] at haa
    cases haa
  refine ⟨rfl, ?_, ?_⟩
  · refine ⟨{ h with
        partials := updateAt h.partials h.nextP (some obj)
        argSeqs := updateAt h.argSeqs obj.argsAddr (some { s with count := s.count + 1 })
        nextP := h.nextP + 1 }, ?_, by omega, ?_, ?_, ?_, ?_, ?_, ?_, ?_, ?_⟩
    · simp [cloneVal, hpa, hs]
    · simp [updateAt]
    · simp only [updateAt]
      rw [if_neg (by omega)]
      exact hpa
    · simp [updateAt]
    · intro b hb
      simp only [updateAt]
      rw [if_neg hb]
    · simp only [observedFun, updateAt]
      rw [if_neg (show ¬a = h.nextP by omega), hpa]
      simp
    · simp only [observedArgs, updateAt]
      rw [if_neg (show ¬a = h.nextP by omega), hpa]
      simp
    · have hpart : updateAt h.partials h.nextP (some obj) a = some obj := by
        simp only [updateAt]
        rw [if_neg (by omega)]
        exact hpa
      have hseq : updateAt h.argSeqs obj.argsAddr (some { s with count := s.count + 1 })
          obj.argsAddr = some { s with count := s.count + 1 } := by
        simp [updateAt]
      simp only [dropVal, hpart, hseq]
      rw [if_neg (by omega)]
      simp only [Option.some_bind, observedArgs, updateAt]
      rw [if_neg (show ¬h.nextP = a by omega)]
      simp
    · have hseq : updateAt h.argSeqs obj.argsAddr (some { s with count := s.count + 1 })
          obj.argsAddr = some { s with count := s.count + 1 } := by
        simp [updateAt]
      have hpart : updateAt h.partials h.nextP (some obj) h.nextP = some obj := by
        simp [updateAt]
      simp only [dropVal, hpart, hseq]
      rw [if_neg (by omega)]
      simp only [Option.some_bind, observedArgs, updateAt]
      rw [if_neg (show ¬a = h.nextP by omega), if_neg (show ¬a = h.nextP by omega), hpa]
      simp
  · refine ⟨{ h with
        arrays := updateAt h.arrays h.nextA (some x)
        nextA := h.nextA + 1 }, ?_, by omega, ?_, ?_⟩
    · simp [cloneVal, haa]
    · simp [updateAt]
    · simp only [updateAt]
      rw [if_neg (by omega)]
      exact haa

/-- A small concrete heap: one Partial at address 0 (function
`{start:5, params:3}`, two bound arguments, share count 1) and one Array
block at address 0. -/
def heap0 : Heap :=
  { partials := updateAt (fun _ => none) 0 (some ⟨⟨5, 3⟩, 0⟩)
    arrays := updateAt (fun _ => none) 0 (some 42)
    argSeqs := updateAt (fun _ => none) 0
      (some ⟨1, .cons (.number 0x3ff0000000000000) (.cons (.vchar 120) .nil)⟩)
    nextP := 1
    nextA := 1 }

/-- C9 witness: cloning the Partial of `heap0` allocates a fresh record at
address 1 and bumps the shared sequence's count to 2 without copying the
arguments. -/
theorem clone_drop_spec_witness :
    ∃ h' : Heap, cloneVal heap0 (.partialAt 0) = some (h', .partialAt 1) ∧
      h'.argSeqs 0 = some ⟨2, .cons (.number 0x3ff0000000000000) (.cons (.vchar 120) .nil)⟩ := by
  have h := clone_drop_spec heap0 7 0 0 42 ⟨⟨5, 3⟩, 0⟩
    ⟨1, .cons (.number 0x3ff0000000000000) (.cons (.vchar 120) .nil)⟩
    rfl rfl (by decide)
    (fun b hb => by simp only [heap0, updateAt] at hb ⊢; rw [if_neg (by omega)])
    rfl
    (fun b hb => by simp only [heap0, updateAt] at hb ⊢; rw [if_neg (by omega)])
  obtain ⟨-, ⟨h', hclone, -, -, -, hseq, -, -, -, -, -⟩, -⟩ := h
  exact ⟨h', hclone, hseq⟩

end Value2
